import Mathlib

/-
Verification of the chess-overlay analyzer core: board detection,
position encoding to board-state strings, the engine session, and the
move formatter.  Definitions are shallow embeddings of the Python
sources (board_detector.py, stockfish_engine.py, chess_analyzer.py);
external collaborators (OpenCV, the chess library, the engine process)
enter as explicit parameters.
-/

namespace Chess

/- ## Decimal digit rendering (models the Python str() of a nonnegative int).
A fuel argument keeps the recursion structural so that everything evaluates
inside the kernel. -/

def natToDigitsAux : Nat → Nat → List Char
  | 0, _ => []
  | fuel + 1, n =>
    if n < 10 then [Nat.digitChar n]
    else natToDigitsAux fuel (n / 10) ++ [Nat.digitChar (n % 10)]

def natToDigits (n : Nat) : List Char := natToDigitsAux (n + 1) n

/-- Numeric value of a decimal digit string (claim-side decoder). -/
def valOfDigits (ds : List Char) : Nat :=
  ds.foldl (fun a c => 10 * a + (c.toNat - 48)) 0

/- ## Piece labels and board-state serialization (board_detector.py,
ChessBoardDetector._board_to_fen). The board is an 8 by 8 grid of
characters; a blank stands for an empty square. -/

def pieceChars : List Char :=
  ['P', 'N', 'B', 'R', 'Q', 'K', 'p', 'n', 'b', 'r', 'q', 'k']

def isLabel (c : Char) : Bool := c == ' ' || pieceChars.contains c

/-- One rank of _board_to_fen: walk the row keeping a count of pending
empty squares; flush the count as a decimal digit before a piece and at
the end of the row. -/
def rowToFenAux : List Char → Nat → List Char
  | [], k => if 0 < k then natToDigits k else []
  | c :: rest, k =>
    if c = ' ' then rowToFenAux rest (k + 1)
    else (if 0 < k then natToDigits k else []) ++ c :: rowToFenAux rest 0

def rowToFen (row : List Char) : List Char := rowToFenAux row 0

/-- The placement part of _board_to_fen: ranks in board order, a slash
after every rank but the last. -/
def rowsToFen : List (List Char) → List Char
  | [] => []
  | [r] => rowToFen r
  | r :: rs => rowToFen r ++ '/' :: rowsToFen rs

/-- Fixed trailer appended by _board_to_fen: side to move, castling,
en passant, clocks. -/
def fenSuffix : List Char := (" w KQkq - 0 1").toList

def board_to_fen (rows : List (List Char)) : List Char :=
  rowsToFen rows ++ fenSuffix

def digitVal (c : Char) : Nat := c.toNat - 48

/-- Claim-side decoder for one rank: each digit expands to that many
empty squares, every other character is a piece. -/
def decodeRank : List Char → List Char
  | [] => []
  | c :: rest =>
    if c.isDigit then List.replicate (digitVal c) ' ' ++ decodeRank rest
    else c :: decodeRank rest

/-- Claim-side decoder for the whole placement: slashes separate ranks,
digits expand to empty squares, letters are pieces. -/
def decodePlacement : List Char → List (List Char)
  | [] => [[]]
  | c :: rest =>
    match decodePlacement rest with
    | [] => [[]]
    | r :: rs =>
      if c = '/' then [] :: r :: rs
      else if c.isDigit then (List.replicate (digitVal c) ' ' ++ r) :: rs
      else (c :: r) :: rs

/- ## Square classification (ChessBoardDetector._detect_piece_on_square).
The square image is the list of its grayscale pixel values.  The Python
code compares the floating-point mean against 90 and 170; the integer
comparisons below are the exact cross-multiplied forms.  The 0 < length
conjuncts record that every comparison with the undefined mean of an
empty slice is false in the source. -/

def detect_piece_on_square (px : List Nat) : Char :=
  if 0 < px.length ∧ 90 * px.length < px.sum ∧ px.sum < 170 * px.length then ' '
  else if 0 < px.length ∧ 170 * px.length ≤ px.sum then 'P'
  else 'p'

/- ## Position encoding (ChessBoardDetector.get_position_fen). -/

structure Image where
  h : Nat
  w : Nat
  pix : Nat → Nat → Nat

/-- Pixels of the square at image cell (row, col): a block of side sq
starting at (row * sq, col * sq), clipped to the image bounds the way a
numpy slice clips. -/
def squarePixels (img : Image) (sq row col : Nat) : List Nat :=
  (List.range sq).flatMap fun dy =>
    (List.range sq).filterMap fun dx =>
      if row * sq + dy < img.h ∧ col * sq + dx < img.w then
        some (img.pix (row * sq + dy) (col * sq + dx))
      else none

/-- The classification pass of get_position_fen.  The classifier may
fail (an exception in the Python) or return a falsy label (None), in
which case the destination cell keeps its initial blank.  The loop
writes the label of image cell (row, col) to board[7 - row][col], and
each board cell (i, j) is written exactly once, by image cell (7-i, j). -/
def boardOfImage (classify : List Nat → Except String (Option Char))
    (img : Image) : Except String (List (List Char)) := do
  let sq := img.h / 8
  let labels ← (List.range 8).mapM fun row =>
    (List.range 8).mapM fun col => classify (squarePixels img sq row col)
  pure (List.ofFn fun i : Fin 8 => List.ofFn fun j : Fin 8 =>
    match (labels.getD (7 - i.val) []).getD j.val none with
    | some p => p
    | none => ' ')

def initialFen : List Char :=
  ("rnbqkbnr/pppppppp/8/8/8/8/PPPPPPPP/RNBQKBNR w KQkq - 0 1").toList

/-- get_position_fen: classify all 64 squares and serialize; any failure
inside the try block is caught, an error is reported (the Boolean
component models the printed error message) and the standard initial
position is returned in place of the encoding. -/
def get_position_fen (classify : List Nat → Except String (Option Char))
    (img : Image) : List Char × Bool :=
  match boardOfImage classify img with
  | .ok rows => (board_to_fen rows, false)
  | .error _ => (initialFen, true)

/-- The reference classifier used by the source: always a truthy label. -/
def refClassifier (px : List Nat) : Except String (Option Char) :=
  .ok (some (detect_piece_on_square px))

/-- Concrete rectified board image: 8 by 8 pixels, bright at image cell
(0, 0), mid-luminance everywhere else. -/
def img1 : Image :=
  ⟨8, 8, fun r c => if r = 0 ∧ c = 0 then 255 else 128⟩

/- ## Board geometry detection (ChessBoardDetector.detect_board).
A contour is abstracted to what the acceptance test reads: the vertex
count of its polygonal approximation and its enclosed area (a rational,
since cv2.contourArea can be fractional).  The accepted contour stands
for the warped image computed from it; no claim inspects the warp. -/

structure Contour where
  nverts : Nat
  area : ℚ

def min_board_size : Nat := 200

/-- detect_board: scan the contours in order, return the first one that
approximates to exactly four vertices and encloses more than
min_board_size squared; fall through to none when no contour qualifies. -/
def detect_board (minSize : Nat) : List Contour → Option Contour
  | [] => none
  | c :: rest =>
    if c.nverts = 4 ∧ ((minSize : ℚ) * (minSize : ℚ)) < c.area then some c
    else detect_board minSize rest

/- ## Engine session lifecycle (stockfish_engine.py). -/

structure EngineSession where
  engine : Option Unit

/-- _init_engine: attempt to spawn and configure the engine process; on
failure the handle is cleared.  Whether the spawn succeeds is an
environment fact, passed in. -/
def init_engine (spawnOk : Bool) (_s : EngineSession) : EngineSession :=
  if spawnOk then ⟨some ()⟩ else ⟨none⟩

/-- quit: terminate the engine and release the handle when one is held. -/
def quit (s : EngineSession) : EngineSession :=
  if s.engine.isSome then ⟨none⟩ else s

/-- The re-initialization preamble of get_best_move: when no engine
handle is held, _init_engine is called before anything else.  The
second component counts engine process spawn attempts made by the call. -/
def get_best_move_init (spawnOk : Bool) (s : EngineSession) :
    EngineSession × Nat :=
  if s.engine.isNone then (init_engine spawnOk s, 1) else (s, 0)

/- ## Analysis results and score formatting (get_best_move body). -/

inductive ScoreVal where
  | mate (n : Int)
  | cp (c : Option Int)

structure EngineInfo where
  score : Option ScoreVal
  pv : List String
  depth : Nat

structure PlayResult where
  move : Option String

structure MoveResult where
  best_move : Option String
  score : Option (List Char)
  depth : Nat
  pv : List String

def mateTag : List Char := ("Mate in ").toList
def matedTag : List Char := ("Mated in ").toList

/-- Two-digit zero-padded rendering of a number below 100, the fraction
part of a .2f format. -/
def pad2 (m : Nat) : List Char := [Nat.digitChar (m / 10), Nat.digitChar (m % 10)]

/-- The .2f rendering of cp / 100: sign, integer part, point, two
decimal digits.  For an integer cp this decimal rendering is exactly
what the Python float format prints. -/
def formatCp (v : Int) : List Char :=
  (if v < 0 then ['-'] else []) ++
    natToDigits (v.natAbs / 100) ++ '.' :: pad2 (v.natAbs % 100)

/-- Score formatting of get_best_move: a mate score prints as
"Mate in n" when the side to move mates (n positive) and "Mated in n"
otherwise; a centipawn score prints as cp / 100 to two decimals, with
"0.00" when the engine reported no centipawn number. -/
def format_score : ScoreVal → List Char
  | .mate n =>
    if 0 < n then mateTag ++ natToDigits n.toNat
    else matedTag ++ natToDigits (-n).toNat
  | .cp c =>
    match c with
    | some v => formatCp v
    | none => ('0' :: '.' :: '0' :: '0' :: [])

/-- Result assembly of get_best_move, given the analyse info and the
play result the engine returned: the best move is the play result, the
principal variation and depth come from the analyse info. -/
def get_best_move_result (info : EngineInfo) (play : PlayResult) : MoveResult :=
  { best_move := play.move
    score := info.score.map format_score
    depth := info.depth
    pv := info.pv }

/-- Claim-side check that one character list starts with another. -/
def isPrefixList : List Char → List Char → Bool
  | [], _ => true
  | _ :: _, [] => false
  | a :: as, b :: bs => a == b && isPrefixList as bs

/-- Claim-side decoder of a mate score string back to the signed mate
distance. -/
def mateDecode (s : List Char) : Option Int :=
  if isPrefixList matedTag s then some (-(valOfDigits (s.drop matedTag.length) : Int))
  else if isPrefixList mateTag s then some ((valOfDigits (s.drop mateTag.length) : Int))
  else none

/-- Claim-side decoder of an unsigned two-decimal string back to an
integer number of centipawns. -/
def cpDecodeNat (s : List Char) : Option Nat :=
  match s.dropWhile (fun c => !(c == '.')) with
  | _ :: d1 :: d2 :: [] =>
    let ip := s.takeWhile (fun c => !(c == '.'))
    if ip.all Char.isDigit && d1.isDigit && d2.isDigit then
      some (valOfDigits ip * 100 + (d1.toNat - 48) * 10 + (d2.toNat - 48))
    else none
  | _ => none

/-- Claim-side decoder of a signed two-decimal string back to an integer
number of centipawns. -/
def cpDecode (s : List Char) : Option Int :=
  if s.head? = some '-' then (cpDecodeNat s.tail).map (fun m => -(m : Int))
  else (cpDecodeNat s).map (fun m => (m : Int))

/- ## Position analysis entry point (chess_analyzer.py,
ChessAnalyzer.analyze_position).  parseOk models whether the chess
library accepts the given board-state string; engineCall models
StockfishEngine.get_best_move.  The Boolean output records whether the
engine was contacted at all. -/

def analyze_position (parseOk : String → Bool)
    (engineCall : String → MoveResult) (fen : String) :
    Except String MoveResult × Bool :=
  if parseOk fen then (.ok (engineCall fen), true)
  else (.error "Invalid FEN string", false)

/- ## Move formatting (ChessAnalyzer.format_move_with_pieces).  The body
parameter models the try block: board construction, move parsing and
description assembly, any exception of which is caught. -/

def format_move_with_pieces (body : String → String → Except Unit String)
    (fen : String) (move_uci : Option String) : String :=
  match move_uci with
  | none => "No move available"
  | some u =>
    if u.length < 4 then "No move available"
    else
      match body fen u with
      | .ok s => s
      | .error _ => "Move " ++ u

/-- Claim-side check that a string of characters occurs contiguously
inside another. -/
def mentions (raw : List Char) : List Char → Bool
  | [] => raw.isEmpty
  | c :: rest => isPrefixList raw (c :: rest) || mentions raw rest

/-- Concrete 8 by 8 grid (the initial chess position) exercising all
thirteen labels for the C2 round trip. -/
def rows0 : List (List Char) :=
  [("rnbqkbnr").toList, ("pppppppp").toList,
   List.replicate 8 ' ', List.replicate 8 ' ',
   List.replicate 8 ' ', List.replicate 8 ' ',
   ("PPPPPPPP").toList, ("RNBQKBNR").toList]

/- ## Lemmas about decimal digits -/

theorem digitChar_isDigit (m : Nat) (h : m < 10) :
    (Nat.digitChar m).isDigit = true := by
  interval_cases m <;> decide

theorem digitChar_toNat (m : Nat) (h : m < 10) :
    (Nat.digitChar m).toNat = 48 + m := by
  interval_cases m <;> decide

theorem natToDigitsAux_isDigit :
    ∀ fuel n, ∀ c ∈ natToDigitsAux fuel n, c.isDigit = true := by
  intro fuel
  induction fuel with
  | zero => intro n c hc; simp [natToDigitsAux] at hc
  | succ fuel ih =>
    intro n c hc
    rw [natToDigitsAux] at hc
    split at hc
    · next h =>
      simp only [List.mem_singleton] at hc
      exact hc ▸ digitChar_isDigit n h
    · next h =>
      rcases List.mem_append.mp hc with h1 | h1
      · exact ih _ c h1
      · simp only [List.mem_singleton] at h1
        exact h1 ▸ digitChar_isDigit _ (Nat.mod_lt _ (by omega))

theorem natToDigits_isDigit (n : Nat) :
    ∀ c ∈ natToDigits n, c.isDigit = true :=
  natToDigitsAux_isDigit (n + 1) n

theorem valOfDigits_append_digit (xs : List Char) (c : Char) :
    valOfDigits (xs ++ [c]) = 10 * valOfDigits xs + (c.toNat - 48) := by
  simp [valOfDigits, List.foldl_append]

theorem natToDigitsAux_val :
    ∀ fuel n, n < fuel → valOfDigits (natToDigitsAux fuel n) = n := by
  intro fuel
  induction fuel with
  | zero => intro n h; omega
  | succ fuel ih =>
    intro n h
    rw [natToDigitsAux]
    split
    · next h10 =>
      simp [valOfDigits, digitChar_toNat n h10]
    · next h10 =>
      rw [valOfDigits_append_digit, ih (n / 10) (by omega),
        digitChar_toNat _ (Nat.mod_lt _ (by omega))]
      omega

theorem natToDigits_val (n : Nat) : valOfDigits (natToDigits n) = n :=
  natToDigitsAux_val (n + 1) n (Nat.lt_succ_self n)

theorem natToDigits_ne_nil (n : Nat) : natToDigits n ≠ [] := by
  rw [natToDigits, natToDigitsAux]
  split
  · simp
  · simp

/- ## Lemmas about rank encoding and placement decoding -/

theorem label_not_digit (c : Char) (h : pieceChars.contains c = true) :
    c.isDigit = false := by
  simp [pieceChars] at h
  rcases h with rfl | rfl | rfl | rfl | rfl | rfl | rfl | rfl | rfl | rfl | rfl | rfl <;> decide

theorem label_ne_slash (c : Char) (h : pieceChars.contains c = true) :
    c ≠ '/' := by
  simp [pieceChars] at h
  rcases h with rfl | rfl | rfl | rfl | rfl | rfl | rfl | rfl | rfl | rfl | rfl | rfl <;> decide

theorem isDigit_ne_slash (c : Char) (h : c.isDigit = true) : c ≠ '/' := by
  intro e
  subst e
  simp at h

theorem rowToFenAux_no_slash :
    ∀ (row : List Char) (k : Nat), (∀ c ∈ row, isLabel c = true) →
      '/' ∉ rowToFenAux row k := by
  intro row
  induction row with
  | nil =>
    intro k _ hmem
    rw [rowToFenAux] at hmem
    split at hmem
    · exact isDigit_ne_slash '/' (natToDigits_isDigit _ _ hmem) rfl
    · simp at hmem
  | cons c rest ih =>
    intro k hval hmem
    have hc : isLabel c = true := hval c (List.mem_cons_self c rest)
    have htl : ∀ c ∈ rest, isLabel c = true :=
      fun x hx => hval x (List.mem_cons_of_mem c hx)
    rw [rowToFenAux] at hmem
    split at hmem
    · exact ih (k + 1) htl hmem
    · next hcsp =>
      rcases List.mem_append.mp hmem with h1 | h1
      · split at h1
        · exact isDigit_ne_slash '/' (natToDigits_isDigit _ _ h1) rfl
        · simp at h1
      · rcases List.mem_cons.mp h1 with h2 | h2
        · rcases (by simpa [isLabel] using hc : c = ' ' ∨ pieceChars.contains c = true) with h3 | h3
          · exact hcsp h3
          · exact label_ne_slash c h3 h2.symm
        · exact ih 0 htl h2

theorem decodeRank_append (xs ys : List Char) :
    decodeRank (xs ++ ys) = decodeRank xs ++ decodeRank ys := by
  induction xs with
  | nil => simp [decodeRank]
  | cons c rest ih =>
    by_cases h : c.isDigit <;> simp [decodeRank, h, ih, List.append_assoc]

theorem decodeRank_flush (k : Nat) (hk : k ≤ 9) :
    decodeRank (if 0 < k then natToDigits k else []) = List.replicate k ' ' := by
  split
  · next h => interval_cases k <;> decide
  · next h =>
    have : k = 0 := by omega
    subst this
    simp [decodeRank]

theorem decodeRank_rowToFenAux :
    ∀ (row : List Char) (k : Nat), (∀ c ∈ row, isLabel c = true) →
      k + row.length ≤ 9 →
      decodeRank (rowToFenAux row k) = List.replicate k ' ' ++ row := by
  intro row
  induction row with
  | nil =>
    intro k _ hk
    rw [rowToFenAux, decodeRank_flush k (by simpa using hk)]
    simp
  | cons c rest ih =>
    intro k hval hk
    have hc : isLabel c = true := hval c (List.mem_cons_self c rest)
    have htl : ∀ x ∈ rest, isLabel x = true :=
      fun x hx => hval x (List.mem_cons_of_mem c hx)
    rw [rowToFenAux]
    split
    · next hsp =>
      subst hsp
      rw [ih (k + 1) htl (by simp at hk ⊢; omega)]
      simp [List.replicate_succ', List.append_assoc]
    · next hsp =>
      have hpc : pieceChars.contains c = true := by
        rcases (by simpa [isLabel] using hc : c = ' ' ∨ pieceChars.contains c = true) with h3 | h3
        · exact absurd h3 hsp
        · exact h3
      rw [decodeRank_append]
      have h1 : decodeRank (c :: rowToFenAux rest 0) =
          c :: decodeRank (rowToFenAux rest 0) := by
        simp [decodeRank, label_not_digit c hpc]
      rw [h1, ih 0 htl (by simp at hk ⊢; omega),
        decodeRank_flush k (by simp at hk; omega)]
      simp

theorem decodePlacement_ne_nil (s : List Char) : decodePlacement s ≠ [] := by
  cases s with
  | nil => simp [decodePlacement]
  | cons c rest =>
    rcases h : decodePlacement rest with _ | ⟨r, rs⟩
    · rw [decodePlacement, h]
      simp
    · rw [decodePlacement, h]
      split_ifs <;> simp

theorem decodePlacement_append :
    ∀ (xs : List Char), '/' ∉ xs → ∀ (ys r : List Char) (rs : List (List Char)),
      decodePlacement ys = r :: rs →
      decodePlacement (xs ++ ys) = (decodeRank xs ++ r) :: rs := by
  intro xs
  induction xs with
  | nil =>
    intro _ ys r rs hys
    simpa [decodeRank] using hys
  | cons c rest ih =>
    intro hns ys r rs hys
    have hc : c ≠ '/' := fun e => hns (e ▸ List.mem_cons_self c rest)
    have hrest : '/' ∉ rest := fun hm => hns (List.mem_cons_of_mem c hm)
    rw [List.cons_append, decodePlacement, ih hrest ys r rs hys]
    have hc' : ¬(c = '/') := hc
    by_cases hd : c.isDigit <;> simp [hc', hd, decodeRank, List.append_assoc]

theorem decodePlacement_rowsToFen :
    ∀ rows : List (List Char), rows ≠ [] →
      (∀ r ∈ rows, (∀ c ∈ r, isLabel c = true) ∧ r.length ≤ 9) →
      decodePlacement (rowsToFen rows) = rows := by
  intro rows
  induction rows with
  | nil => intro h; exact absurd rfl h
  | cons r rs ih =>
    intro _ hval
    have hr := hval r (List.mem_cons_self r rs)
    have hdec : decodeRank (rowToFen r) = r := by
      simpa using decodeRank_rowToFenAux r 0 hr.1 (by simpa using hr.2)
    have hnos : '/' ∉ rowToFen r := rowToFenAux_no_slash r 0 hr.1
    cases rs with
    | nil =>
      have h0 : decodePlacement ([] : List Char) = [] :: [] := by
        simp [decodePlacement]
      have := decodePlacement_append (rowToFen r) hnos [] [] [] h0
      rw [List.append_nil] at this
      show decodePlacement (rowToFen r) = [r]
      rw [this, hdec]
      simp
    | cons r2 rs2 =>
      have hrec : decodePlacement (rowsToFen (r2 :: rs2)) = r2 :: rs2 :=
        ih (by simp) (fun x hx => hval x (List.mem_cons_of_mem r hx))
      have hslash : decodePlacement ('/' :: rowsToFen (r2 :: rs2)) =
          [] :: r2 :: rs2 := by
        rw [decodePlacement, hrec]
        simp
      have := decodePlacement_append (rowToFen r) hnos
        ('/' :: rowsToFen (r2 :: rs2)) [] (r2 :: rs2) hslash
      show decodePlacement (rowToFen r ++ '/' :: rowsToFen (r2 :: rs2)) =
        r :: r2 :: rs2
      rw [this, hdec]
      simp

theorem count_slash_rowsToFen :
    ∀ rows : List (List Char), rows ≠ [] →
      (∀ r ∈ rows, ∀ c ∈ r, isLabel c = true) →
      (rowsToFen rows).count '/' = rows.length - 1 := by
  intro rows
  induction rows with
  | nil => intro h; exact absurd rfl h
  | cons r rs ih =>
    intro _ hval
    have hnos : '/' ∉ rowToFen r :=
      rowToFenAux_no_slash r 0 (hval r (List.mem_cons_self r rs))
    cases rs with
    | nil =>
      show (rowToFen r).count '/' = 0
      exact List.count_eq_zero.mpr hnos
    | cons r2 rs2 =>
      have hrec := ih (by simp) (fun x hx => hval x (List.mem_cons_of_mem r hx))
      show (rowToFen r ++ '/' :: rowsToFen (r2 :: rs2)).count '/' = _
      rw [List.count_append, List.count_cons_self,
        List.count_eq_zero.mpr hnos, hrec]
      simp

/- ## Claim theorems -/

/-- Claim C1: the claim states that the label classified at image cell
(row, col) is stored at board[7-row][col] AND that consequently the
piece at image row 0 appears in the first slash-separated rank field of
the serialized placement.  The code stores at board[7-row][col] but the
serializer emits board[0] first, so the image-top label lands in the
LAST rank field.  Evaluating the encoder on a board image whose only
piece is at image cell (0, 0) yields a placement whose first field is
the empty rank 8 and whose last field is P7. -/
theorem c1_code_bug :
    get_position_fen refClassifier img1 =
      (("8/8/8/8/8/8/8/P7 w KQkq - 0 1").toList, false) := rfl

/-- Claim C2: the placement produced by the serializer from any 8 by 8
grid of piece labels has exactly 7 slash separators, and decoding it
(digits expand to runs of empty squares, letters to pieces) gives back
the encoded grid. -/
theorem c2 (rows : List (List Char)) (hlen : rows.length = 8)
    (hval : ∀ r ∈ rows, r.length = 8 ∧ ∀ c ∈ r, isLabel c = true) :
    (rowsToFen rows).count '/' = 7 ∧ decodePlacement (rowsToFen rows) = rows := by
  have hne : rows ≠ [] := by
    intro e
    rw [e] at hlen
    simp at hlen
  constructor
  · rw [count_slash_rowsToFen rows hne (fun r hr => (hval r hr).2), hlen]
  · exact decodePlacement_rowsToFen rows hne
      (fun r hr => ⟨(hval r hr).2, by rw [(hval r hr).1]; omega⟩)

/-- Witness for C2 at a concrete grid. -/
theorem c2_witness :
    (rowsToFen rows0).count '/' = 7 ∧
      decodePlacement (rowsToFen rows0) = rows0 :=
  c2 rows0 rfl (by decide)

/-- Claim C3 counterexample: a session closed by quit has its handle
released, yet a following get_best_move call (with a spawnable engine
binary) performs a spawn and returns the session to Ready — the code
re-initializes whenever the handle is absent, so Closed is not
terminal.  This refutes the claim that no operation on a closed session
spawns a new engine process. -/
theorem c3_counterexample :
    (quit ⟨some ()⟩).engine = none ∧
      (get_best_move_init true (quit ⟨some ()⟩)).1.engine = some () ∧
      (get_best_move_init true (quit ⟨some ()⟩)).2 = 1 := by decide

/-- Claim C3 amended: quit always releases the engine handle, but a
subsequent get_best_move on the closed session attempts a lazy
re-initialization — it performs a spawn attempt and, when the spawn
succeeds, holds a fresh engine handle (Ready) again. -/
theorem c3_amended (s : EngineSession) :
    (quit s).engine = none ∧
      (get_best_move_init true (quit s)).1.engine = some () ∧
      (get_best_move_init true (quit s)).2 = 1 := by
  obtain ⟨e⟩ := s
  cases e <;> simp [quit, get_best_move_init, init_engine]

/-- Claim C7: any internal failure during encoding is caught at the
boundary of get_position_fen: the call still returns (no exception),
the reported-failure flag is raised — distinguishing the outcome from
every successful encoding, which returns the flag lowered — and the
position returned in place of the encoding is the standard initial
position string. -/
theorem c7 (classify : List Nat → Except String (Option Char)) (img : Image) :
    (∀ e, boardOfImage classify img = Except.error e →
      get_position_fen classify img = (initialFen, true)) ∧
    (∀ rows, boardOfImage classify img = Except.ok rows →
      get_position_fen classify img = (board_to_fen rows, false)) := by
  constructor <;> intro x h <;> simp [get_position_fen, h]

/-- Witness for C7: a classifier that always fails makes the encoder
return the initial position with the failure flag raised. -/
theorem c7_witness :
    get_position_fen (fun _ => Except.error "classifier failure") img1 =
      (initialFen, true) :=
  (c7 (fun _ => Except.error "classifier failure") img1).1 "classifier failure" rfl

/-- Claim C8: when no contour approximates to exactly four vertices
with enclosed area above min_board_size squared, detect_board falls
through every contour and returns none; being a total function, it
raises nothing. -/
theorem c8 (cs : List Contour)
    (h : ∀ c ∈ cs, ¬(c.nverts = 4 ∧
      ((min_board_size : ℚ) * (min_board_size : ℚ)) < c.area)) :
    detect_board min_board_size cs = none := by
  induction cs with
  | nil => rfl
  | cons c rest ih =>
    rw [detect_board]
    rw [if_neg (h c (List.mem_cons_self c rest))]
    exact ih (fun x hx => h x (List.mem_cons_of_mem c hx))

/-- Witness for C8: a five-vertex contour of large area and a
four-vertex contour at exactly the threshold area are both rejected. -/
theorem c8_witness :
    detect_board min_board_size [⟨5, 100000⟩, ⟨4, 40000⟩] = none :=
  c8 [⟨5, 100000⟩, ⟨4, 40000⟩]
    (by intro c hc; fin_cases hc <;> norm_num [min_board_size])

/-- Claim C9 counterexample: a square whose pixels all have luminance
exactly 90 has mean exactly 90, which lies in the 90 to 170 band of the
claim, yet the classifier returns the black-pawn label, not empty — the
code tests 90 strictly less than the mean. -/
theorem c9_counterexample :
    ([90] : List Nat) ≠ [] ∧
      90 * ([90] : List Nat).length ≤ ([90] : List Nat).sum ∧
      ([90] : List Nat).sum < 170 * ([90] : List Nat).length ∧
      detect_piece_on_square [90] = 'p' ∧ ('p' : Char) ≠ ' ' := by decide

/-- Claim C9 amended: for a nonempty square image the classifier returns
empty when the mean luminance is strictly between 90 and 170, the
white-pawn placeholder when the mean is at least 170, and the
black-pawn placeholder when the mean is at most 90 (the band is open at
its lower bound).  Mean comparisons are stated in cross-multiplied
integer form. -/
theorem c9_amended (px : List Nat) (h : px ≠ []) :
    (90 * px.length < px.sum ∧ px.sum < 170 * px.length →
      detect_piece_on_square px = ' ') ∧
    (170 * px.length ≤ px.sum → detect_piece_on_square px = 'P') ∧
    (px.sum ≤ 90 * px.length → detect_piece_on_square px = 'p') := by
  have hn : 0 < px.length := List.length_pos.mpr h
  refine ⟨fun hb => ?_, fun hb => ?_, fun hb => ?_⟩ <;>
    simp only [detect_piece_on_square] <;> split_ifs <;> first | rfl | omega

/-- Witness for C9 amended at a mid-band square. -/
theorem c9_witness : detect_piece_on_square [100] = ' ' :=
  (c9_amended [100] (by decide)).1 (by decide)

/- ## Lemmas for score decoding -/

theorem isDigit_ne_dot (c : Char) (h : c.isDigit = true) : c ≠ '.' := by
  intro e
  subst e
  exact absurd h (by decide)

theorem isDigit_ne_minus (c : Char) (h : c.isDigit = true) : c ≠ '-' := by
  intro e
  subst e
  exact absurd h (by decide)

theorem takeWhile_append_block (p : Char → Bool) :
    ∀ xs : List Char, (∀ x ∈ xs, p x = true) → ∀ y : Char, p y = false →
      ∀ ys : List Char, (xs ++ y :: ys).takeWhile p = xs := by
  intro xs
  induction xs with
  | nil => intro _ y hy ys; simp [List.takeWhile_cons, hy]
  | cons a as ih =>
    intro hx y hy ys
    have ha := hx a (List.mem_cons_self a as)
    simp [List.takeWhile_cons, ha,
      ih (fun x hm => hx x (List.mem_cons_of_mem a hm)) y hy ys]

theorem dropWhile_append_block (p : Char → Bool) :
    ∀ xs : List Char, (∀ x ∈ xs, p x = true) → ∀ y : Char, p y = false →
      ∀ ys : List Char, (xs ++ y :: ys).dropWhile p = y :: ys := by
  intro xs
  induction xs with
  | nil => intro _ y hy ys; simp [List.dropWhile_cons, hy]
  | cons a as ih =>
    intro hx y hy ys
    have ha := hx a (List.mem_cons_self a as)
    simp [List.dropWhile_cons, ha,
      ih (fun x hm => hx x (List.mem_cons_of_mem a hm)) y hy ys]

theorem natToDigits_cons (n : Nat) :
    ∃ c cs, natToDigits n = c :: cs ∧ c.isDigit = true := by
  rcases h : natToDigits n with _ | ⟨c, cs⟩
  · exact absurd h (natToDigits_ne_nil n)
  · exact ⟨c, cs, rfl, natToDigits_isDigit n c (h ▸ List.mem_cons_self c cs)⟩

theorem cpDecodeNat_core (a b : Nat) (hb : b < 100) :
    cpDecodeNat (natToDigits a ++ '.' :: pad2 b) = some (a * 100 + b) := by
  have hall : ∀ x ∈ natToDigits a, (!(x == '.')) = true := by
    intro x hx
    have hne : x ≠ '.' := isDigit_ne_dot x (natToDigits_isDigit a x hx)
    simp [hne]
  have hdrop : (natToDigits a ++ '.' :: pad2 b).dropWhile (fun c => !(c == '.')) =
      '.' :: pad2 b :=
    dropWhile_append_block _ (natToDigits a) hall '.' (by decide) (pad2 b)
  have htake : (natToDigits a ++ '.' :: pad2 b).takeWhile (fun c => !(c == '.')) =
      natToDigits a :=
    takeWhile_append_block _ (natToDigits a) hall '.' (by decide) (pad2 b)
  have hdrop' : (natToDigits a ++ '.' :: pad2 b).dropWhile (fun c => !(c == '.')) =
      '.' :: Nat.digitChar (b / 10) :: Nat.digitChar (b % 10) :: [] := by
    rw [hdrop]
    rfl
  have h1 : (Nat.digitChar (b / 10)).isDigit = true := digitChar_isDigit _ (by omega)
  have h2 : (Nat.digitChar (b % 10)).isDigit = true := digitChar_isDigit _ (by omega)
  have h3 : (natToDigits a).all Char.isDigit = true :=
    List.all_eq_true.mpr (fun x hx => natToDigits_isDigit a x hx)
  simp only [cpDecodeNat, hdrop', htake, h1, h2, h3, Bool.and_true,
    Bool.and_self, if_true, Option.some.injEq]
  rw [natToDigits_val, digitChar_toNat _ (by omega : b / 10 < 10),
    digitChar_toNat _ (by omega : b % 10 < 10)]
  omega

theorem cpDecode_formatCp (v : Int) : cpDecode (formatCp v) = some v := by
  have hb : v.natAbs % 100 < 100 := Nat.mod_lt _ (by omega)
  by_cases hv : v < 0
  · have hf : formatCp v =
        '-' :: (natToDigits (v.natAbs / 100) ++ '.' :: pad2 (v.natAbs % 100)) := by
      simp [formatCp, hv]
    rw [hf, cpDecode]
    simp only [List.head?_cons, List.tail_cons, if_pos rfl]
    rw [cpDecodeNat_core _ _ hb]
    exact congrArg some (by beta_reduce; omega)
  · obtain ⟨c0, cs0, hc, hcd⟩ := natToDigits_cons (v.natAbs / 100)
    have hf : formatCp v =
        natToDigits (v.natAbs / 100) ++ '.' :: pad2 (v.natAbs % 100) := by
      simp [formatCp, hv]
    rw [hf, cpDecode]
    have hhead : (natToDigits (v.natAbs / 100) ++
        '.' :: pad2 (v.natAbs % 100)).head? = some c0 := by
      rw [hc]
      rfl
    rw [if_neg (by
      rw [hhead]
      intro hcon
      exact isDigit_ne_minus c0 hcd (by injection hcon))]
    rw [cpDecodeNat_core _ _ hb]
    exact congrArg some (by beta_reduce; omega)

/- ## Remaining claim theorems -/

/-- Claim C4: when the board-state string is rejected by the chess
library, analyze_position returns the InvalidPosition error and never
contacts the engine (the Boolean engine-traffic flag stays false, so
the engine state is untouched). -/
theorem c4 (parseOk : String → Bool) (engineCall : String → MoveResult)
    (fen : String) (h : parseOk fen = false) :
    analyze_position parseOk engineCall fen =
      (.error "Invalid FEN string", false) := by
  simp [analyze_position, h]

/-- Witness for C4 on the invalid-fen-string scenario. -/
theorem c4_witness :
    analyze_position (fun _ => false) (fun _ => ⟨none, none, 0, []⟩)
      "invalid-fen-string" = (.error "Invalid FEN string", false) :=
  c4 (fun _ => false) (fun _ => ⟨none, none, 0, []⟩) "invalid-fen-string" rfl

/-- Claim C5: a mate report formats to a string that faithfully encodes
the signed mate distance — it decodes back to the reported number, and
it carries the Mate-in prefix exactly when the side to move mates
(positive distance), the Mated-in prefix otherwise; a centipawn report
formats as the exact two-decimal rendering of cp / 100, which decodes
back to the reported centipawn value. -/
theorem c5 (info : EngineInfo) (play : PlayResult) :
    (∀ n : Int, info.score = some (ScoreVal.mate n) →
      (get_best_move_result info play).score = some (format_score (ScoreVal.mate n)) ∧
      mateDecode (format_score (ScoreVal.mate n)) = some n ∧
      (0 < n ↔ ∃ t, format_score (ScoreVal.mate n) = mateTag ++ t)) ∧
    (∀ v : Int, info.score = some (ScoreVal.cp (some v)) →
      (get_best_move_result info play).score = some (formatCp v) ∧
      cpDecode (formatCp v) = some v) := by
  constructor
  · intro n hn
    refine ⟨by simp [get_best_move_result, hn], ?_, ?_⟩
    · by_cases hpos : 0 < n
      · have hf : format_score (ScoreVal.mate n) = mateTag ++ natToDigits n.toNat := by
          simp [format_score, hpos]
        have h1 : isPrefixList matedTag (mateTag ++ natToDigits n.toNat) = false := rfl
        have h2 : isPrefixList mateTag (mateTag ++ natToDigits n.toNat) = true := rfl
        have h3 : (mateTag ++ natToDigits n.toNat).drop matedTag.length =
            (mateTag ++ natToDigits n.toNat).drop matedTag.length := rfl
        have h4 : (mateTag ++ natToDigits n.toNat).drop mateTag.length =
            natToDigits n.toNat := rfl
        rw [hf, mateDecode, h1, h2, h4]
        simp [natToDigits_val]
        omega
      · have hf : format_score (ScoreVal.mate n) =
            matedTag ++ natToDigits (-n).toNat := by
          simp [format_score, hpos]
        have h1 : isPrefixList matedTag (matedTag ++ natToDigits (-n).toNat) = true := rfl
        have h4 : (matedTag ++ natToDigits (-n).toNat).drop matedTag.length =
            natToDigits (-n).toNat := rfl
        rw [hf, mateDecode, h1, h4]
        simp [natToDigits_val]
        omega
    · constructor
      · intro hpos
        exact ⟨natToDigits n.toNat, by simp [format_score, hpos]⟩
      · rintro ⟨t, ht⟩
        by_contra hneg
        have hf : format_score (ScoreVal.mate n) =
            matedTag ++ natToDigits (-n).toNat := by
          simp [format_score, hneg]
        rw [hf] at ht
        have e1 : isPrefixList matedTag (matedTag ++ natToDigits (-n).toNat) = true := rfl
        have e2 : isPrefixList matedTag (mateTag ++ t) = false := rfl
        rw [ht, e2] at e1
        exact absurd e1 (by decide)
  · intro v hv
    exact ⟨by simp [get_best_move_result, hv, format_score], cpDecode_formatCp v⟩

/-- Witness for C5 at a concrete mate report. -/
theorem c5_witness :
    (get_best_move_result ⟨some (ScoreVal.mate 3), [], 10⟩ ⟨none⟩).score =
        some (format_score (ScoreVal.mate 3)) ∧
      mateDecode (format_score (ScoreVal.mate 3)) = some 3 ∧
      (0 < (3 : Int) ↔ ∃ t, format_score (ScoreVal.mate 3) = mateTag ++ t) :=
  (c5 ⟨some (ScoreVal.mate 3), [], 10⟩ ⟨none⟩).1 3 rfl

/-- Claim C6 counterexample: the best move returned by get_best_move is
the result of a second, independent engine search (engine.play), not
the head of the analyse principal variation; with engine responses
whose play move differs from the pv head, the returned best move is not
the first pv element even though the pv is nonempty. -/
theorem c6_counterexample :
    (get_best_move_result ⟨none, ["e2e4"], 12⟩ ⟨some "d2d4"⟩).pv ≠ [] ∧
      (get_best_move_result ⟨none, ["e2e4"], 12⟩ ⟨some "d2d4"⟩).best_move ≠
        some ((get_best_move_result ⟨none, ["e2e4"], 12⟩ ⟨some "d2d4"⟩).pv.headD "") := by
  decide

/-- Claim C6 amended: the best move returned is exactly the engine play
result; it equals the head of the reported principal variation exactly
when the play call returned that same move — the code imposes no
agreement between the two engine queries. -/
theorem c6_amended (info : EngineInfo) (play : PlayResult) :
    (get_best_move_result info play).best_move = play.move ∧
      (play.move = info.pv.head? →
        (get_best_move_result info play).best_move =
          (get_best_move_result info play).pv.head?) :=
  ⟨rfl, fun h => h⟩

/-- Witness for C6 amended when the two engine queries agree. -/
theorem c6_witness :
    (get_best_move_result ⟨none, ["e2e4"], 12⟩ ⟨some "e2e4"⟩).best_move =
      (get_best_move_result ⟨none, ["e2e4"], 12⟩ ⟨some "e2e4"⟩).pv.head? :=
  (c6_amended ⟨none, ["e2e4"], 12⟩ ⟨some "e2e4"⟩).2 rfl

/- ## Lemmas for the move formatter -/

theorem isPrefixList_self : ∀ xs : List Char, isPrefixList xs xs = true := by
  intro xs
  induction xs with
  | nil => rfl
  | cons a as ih => simp [isPrefixList, ih]

theorem mentions_append_self (raw : List Char) :
    ∀ pre : List Char, mentions raw (pre ++ raw) = true := by
  intro pre
  induction pre with
  | nil =>
    cases raw with
    | nil => rfl
    | cons c cs =>
      show mentions (c :: cs) (c :: cs) = true
      rw [mentions, isPrefixList_self]
      rfl
  | cons p ps ih =>
    rw [List.cons_append, mentions, ih]
    simp

/-- Claim C10 counterexample: the move string e2 is malformed (shorter
than a coordinate move), and the formatter returns the fixed string
No move available, which does not mention the raw move text e2 — so the
malformed-input fallback does not always name the raw move text. -/
theorem c10_counterexample :
    format_move_with_pieces (fun _ _ => Except.error ())
        ("rnbqkbnr/pppppppp/8/8/8/8/PPPPPPPP/RNBQKBNR w KQkq - 0 1")
        (some "e2") = "No move available" ∧
      mentions (("e2").toList) (("No move available").toList) = false :=
  ⟨rfl, rfl⟩

/-- Claim C10 amended: the formatter never raises; an absent move or a
move shorter than four characters yields the fixed string
No move available, while a move of valid length whose processing fails
(a parse error or any other exception in the body) yields the fallback
Move followed by the raw move text, which does mention that text. -/
theorem c10_amended (body : String → String → Except Unit String)
    (fen : String) (mv : Option String) :
    (mv = none → format_move_with_pieces body fen mv = "No move available") ∧
    (∀ u, mv = some u → u.length < 4 →
      format_move_with_pieces body fen mv = "No move available") ∧
    (∀ u e, mv = some u → 4 ≤ u.length → body fen u = Except.error e →
      format_move_with_pieces body fen mv = "Move " ++ u ∧
        mentions u.toList (("Move " ++ u).toList) = true) := by
  refine ⟨?_, ?_, ?_⟩
  · rintro rfl
    rfl
  · rintro u rfl hu
    simp [format_move_with_pieces, hu]
  · rintro u e rfl hu hb
    have hlt : ¬ u.length < 4 := by omega
    refine ⟨by simp [format_move_with_pieces, hlt, hb], ?_⟩
    have hsplit : ("Move " ++ u).toList = ("Move ").toList ++ u.toList := by
      simp [String.toList]
    rw [hsplit]
    exact mentions_append_self u.toList ("Move ").toList

/-- Witness for C10 amended at a failing body and a four-character move. -/
theorem c10_witness :
    format_move_with_pieces (fun _ _ => Except.error ())
        ("8/8/8/8/8/8/8/8 w - - 0 1") (some "a1a2") = "Move " ++ "a1a2" ∧
      mentions (("a1a2").toList) (("Move " ++ "a1a2").toList) = true :=
  (c10_amended (fun _ _ => Except.error ()) ("8/8/8/8/8/8/8/8 w - - 0 1")
    (some "a1a2")).2.2 "a1a2" () rfl (by decide) rfl

end Chess
